import Mathlib

/-!
# Verification of the gihftp retrieval-aggregation-delivery pipeline

A shallow embedding of the core logic of the `gihftp` repository:

* `internal/merger/merger.go` — the aggregation engine (`AddContent`,
  `GetSortedStats`, `SaveToFile`, `getTotalRequests`, `getTopDomain`);
* `main.go` — the run-outcome classification in `run`;
* `internal/sftp/client.go` — authentication-material selection and
  host-key policy selection in `getSSHConfig`, and the trust-on-first-use
  host-key callback `trustOnFirstUse`.

Strings are modelled through their character lists.  Go `int` arithmetic
is 64-bit two's-complement, so additions into the aggregation map are
reduced by `wrap64`.  Go map iteration order is unspecified, so
`GetSortedStats` is modelled as a function of an arbitrary enumeration
(`IsEnumOf`) of the map's entries.  `bufio.Scanner` with the default
`ScanLines` split function is modelled by `rawLines` (split on `'\n'`,
no token after a trailing newline, a trailing `'\r'` dropped by `dropCR`)
together with the 64 KiB token limit `lineLimit` (`bufio.MaxScanTokenSize`):
a line that reaches the limit stops the scan with `ErrTooLong`.
-/

namespace Gihftp

/-- The byte length of a string's characters in UTF-8, as Go measures
`bufio.Scanner` tokens. -/
def byteLen (l : List Char) : Nat := (l.map Char.utf8Size).sum

/-- `bufio.MaxScanTokenSize`: a scan token that reaches this many bytes makes
the scanner fail with `ErrTooLong`. -/
def lineLimit : Nat := 65536

/-- The characters Go's `unicode.IsSpace` accepts (the set trimmed by
`strings.TrimSpace`). -/
def isGoSpace (c : Char) : Bool :=
  c = ' ' ∨ c = '\t' ∨ c = '\n' ∨ c = '\x0b' ∨ c = '\x0c' ∨ c = '\x0d' ∨
  c = '\x85' ∨ c = '\xa0' ∨ c = ' ' ∨
  (' ' ≤ c ∧ c ≤ ' ') ∨ c = ' ' ∨ c = ' ' ∨
  c = ' ' ∨ c = ' ' ∨ c = '　'

/-- `strings.TrimSpace`: drop leading and trailing space characters. -/
def trimChars (l : List Char) : List Char :=
  ((l.dropWhile isGoSpace).reverse.dropWhile isGoSpace).reverse

/-- Helper for `splitChars`: prepend a character to the first chunk. -/
def consHead (c : Char) : List (List Char) → List (List Char)
  | [] => [[c]]
  | h :: t => (c :: h) :: t

/-- `strings.Split` with a one-character separator, on character lists
(`splitChars p "" = [[]]`, exactly as `strings.Split("", sep)` yields one
empty field). -/
def splitChars (p : Char → Bool) : List Char → List (List Char)
  | [] => [[]]
  | c :: cs => if p c then [] :: splitChars p cs else consHead c (splitChars p cs)

/-- `bufio.ScanLines` drops one trailing carriage return from each token. -/
def dropCR (l : List Char) : List Char :=
  if l.getLast? = some '\x0d' then l.dropLast else l

/-- Drop the chunk after a trailing newline: `bufio.Scanner` emits no final
empty token when the input ends with `'\n'` (or is empty). -/
def dropLastEmpty (parts : List (List Char)) : List (List Char) :=
  match parts.getLast? with
  | some [] => parts.dropLast
  | _ => parts

/-- The raw tokens `bufio.Scanner`/`ScanLines` would emit for `content`
(before each token's `dropCR`), assuming no token reaches `lineLimit`. -/
def rawLines (content : String) : List (List Char) :=
  dropLastEmpty (splitChars (fun c => c = '\n') content.data)

/-- Decimal digit character. -/
def digitChar (n : Nat) : Char := Char.ofNat (48 + n)

/-- Decimal digits of `n`, most significant first; `fuel`-structured so the
kernel can evaluate it (`fuel > n` suffices). -/
def natDigitsAux : Nat → Nat → List Char
  | 0, _ => []
  | fuel + 1, n =>
    if n < 10 then [digitChar n]
    else natDigitsAux fuel (n / 10) ++ [digitChar (n % 10)]

/-- Decimal digits of a natural number, as `fmt.Fprintf("%d")` prints it. -/
def natDigits (n : Nat) : List Char := natDigitsAux (n + 1) n

/-- The characters `fmt.Fprintf("%d")` prints for a (64-bit) integer. -/
def intChars (i : Int) : List Char :=
  if i < 0 then '-' :: natDigits (-i).toNat else natDigits i.toNat

/-- Value of an ASCII decimal digit. -/
def digitVal? (c : Char) : Option Nat :=
  if 48 ≤ c.toNat ∧ c.toNat ≤ 57 then some (c.toNat - 48) else none

/-- Accumulating decimal parser over a digit string; fails on any
non-digit character (Go `strconv.ParseInt` base-10 digit loop). -/
def digitsValAux : Nat → List Char → Option Nat
  | acc, [] => some acc
  | acc, c :: cs =>
    match digitVal? c with
    | some d => digitsValAux (acc * 10 + d) cs
    | none => none

/-- Parse a non-empty all-digit string. -/
def digitsVal (l : List Char) : Option Nat :=
  match l with
  | [] => none
  | _ => digitsValAux 0 l

def int64Min : Int := -(2 ^ 63)

def int64Max : Int := 2 ^ 63 - 1

/-- Magnitude step of `strconv.ParseInt`: parse the digit string, apply the
sign, fail when the value leaves the 64-bit range. -/
def atoiMag (neg : Bool) (digits : List Char) : Option Int :=
  match digitsVal digits with
  | none => none
  | some n =>
    if int64Min ≤ (if neg then -(n : Int) else (n : Int)) ∧
        (if neg then -(n : Int) else (n : Int)) ≤ int64Max then
      some (if neg then -(n : Int) else (n : Int))
    else none

/-- `strconv.Atoi`: optional sign, non-empty digit string, 64-bit range
check (out-of-range input returns an error, hence `none`). -/
def atoiChars (l : List Char) : Option Int :=
  match l with
  | [] => none
  | c :: rest =>
    if c = '-' then atoiMag true rest
    else if c = '+' then atoiMag false rest
    else atoiMag false l

/-- Reduction of Go 64-bit two's-complement `int` addition results. -/
def wrap64 (i : Int) : Int := (i + 2 ^ 63) % 2 ^ 64 - 2 ^ 63

/-- `merger.Merger`: the accumulation map `data map[string]int` (modelled as
an insertion-ordered association list with unique keys; Go maps carry no
order, so every consumer of the map quantifies over an arbitrary
enumeration, see `IsEnumOf`) and the working directory. -/
structure Merger where
  data : List (String × Int)
  workDir : String
deriving DecidableEq

/-- `merger.New`. -/
def Merger.new (workDir : String) : Merger := ⟨[], workDir⟩

/-- `m.data[domain] += count`: a missing key reads as zero, and the Go
`int` sum wraps at 64 bits. -/
def dataAdd : List (String × Int) → String → Int → List (String × Int)
  | [], k, v => [(k, wrap64 v)]
  | (k', v') :: rest, k, v =>
    if k' = k then (k', wrap64 (v' + v)) :: rest
    else (k', v') :: dataAdd rest k v

/-- Reading `m.data[domain]` (zero for a missing key). -/
def lookupCount : List (String × Int) → String → Int
  | [], _ => 0
  | (k, v) :: rest, d => if k = d then v else lookupCount rest d

/-- Outcome of `AddContent`'s per-line processing. -/
inductive LineResult where
  | empty
  | invalid
  | valid (domain : String) (count : Int)
deriving DecidableEq

/-- One loop iteration of `AddContent` on a scanned line: skip empty lines,
split on `'|'` into exactly two fields, trim both, parse the count with
`strconv.Atoi`. -/
def processLine (l : List Char) : LineResult :=
  if l = [] then .empty
  else
    match splitChars (fun c => c = '|') l with
    | [p0, p1] =>
      match atoiChars (trimChars p1) with
      | some n => .valid ⟨trimChars p0⟩ n
      | none => .invalid
    | _ => .invalid

/-- Result of `AddContent`: the updated merger, the two line tallies, and
the error returned (non-`none` exactly when the scanner failed). -/
structure AddResult where
  merger : Merger
  processed : Nat
  skipped : Nat
  err : Option String
deriving DecidableEq

/-- The scan loop of `AddContent` over the raw tokens: a token that reaches
`lineLimit` bytes stops the scan and surfaces `bufio.ErrTooLong` through
`scanner.Err()`; otherwise the (CR-stripped) line is processed. -/
def addContentAux (m : Merger) (processed skipped : Nat) :
    List (List Char) → AddResult
  | [] => ⟨m, processed, skipped, none⟩
  | raw :: rest =>
    if lineLimit ≤ byteLen raw then
      ⟨m, processed, skipped, some "error reading content: bufio.Scanner: token too long"⟩
    else
      match processLine (dropCR raw) with
      | .empty => addContentAux m processed skipped rest
      | .invalid => addContentAux m processed (skipped + 1) rest
      | .valid d n =>
        addContentAux ⟨dataAdd m.data d n, m.workDir⟩ (processed + 1) skipped rest

/-- `Merger.AddContent`. -/
def addContent (m : Merger) (content : String) : AddResult :=
  addContentAux m 0 0 (rawLines content)

/-- Feeding a sequence of payloads to one merger, ignoring per-payload
errors exactly as `fetchFromServerWeekly` does. -/
def ingestAll (workDir : String) (payloads : List String) : Merger :=
  payloads.foldl (fun m p => (addContent m p).merger) (Merger.new workDir)

/-- `merger.DomainStats`. -/
structure DomainStats where
  Domain : String
  Count : Int
deriving DecidableEq

/-- The `stats` slice `GetSortedStats` builds from a map enumeration. -/
def toStats (l : List (String × Int)) : List DomainStats :=
  l.map fun kv => ⟨kv.1, kv.2⟩

/-- Insert into a descending-by-`Count` list, before the first strictly
smaller entry. -/
def insertStat (x : DomainStats) : List DomainStats → List DomainStats
  | [] => [x]
  | y :: ys => if y.Count ≤ x.Count then x :: y :: ys else y :: insertStat x ys

/-- Sorting by count descending.  Composed with an arbitrary enumeration of
the map this yields exactly the outputs `sort.Slice` (no stability
guarantee) over Go's unspecified map iteration order can produce: the
sorted-by-count permutations of the entries. -/
def sortStats : List DomainStats → List DomainStats
  | [] => []
  | x :: xs => insertStat x (sortStats xs)

/-- `GetSortedStats` as a function of the map enumeration the Go runtime
happens to produce. -/
def getSortedStatsOn (enum : List (String × Int)) : List DomainStats :=
  sortStats (toStats enum)

/-- The enumerations of `m.data` Go's map range loop may yield. -/
abbrev IsEnumOf (m : Merger) (enum : List (String × Int)) : Prop :=
  enum.Perm m.data

/-- `getTotalRequests`: `total += stat.Count` over the slice (64-bit). -/
def getTotalRequests (stats : List DomainStats) : Int :=
  stats.foldl (fun t st => wrap64 (t + st.Count)) 0

/-- `getTopDomain`. -/
def getTopDomain (stats : List DomainStats) : String :=
  match stats with
  | [] => "N/A"
  | st :: _ => st.Domain

/-- `getTopDomainHits`. -/
def getTopDomainHits (stats : List DomainStats) : Int :=
  match stats with
  | [] => 0
  | st :: _ => st.Count

/-- One line of `SaveToFile`'s output: `fmt.Fprintf(file, "%s|%d\n", ...)`
without the newline. -/
def lineChars (st : DomainStats) : List Char :=
  st.Domain.data ++ '|' :: intChars st.Count

/-- The bytes `SaveToFile` writes for a stats slice. -/
def serializeChars (stats : List DomainStats) : List Char :=
  (stats.map fun st => lineChars st ++ ['\n']).flatten

/-- The serialized aggregate artifact as a string. -/
def serializeStats (stats : List DomainStats) : String :=
  ⟨serializeChars stats⟩

/-- The merger states reachable by the program: a fresh `New` followed by
any sequence of `AddContent` calls. -/
inductive Reachable : Merger → Prop where
  | new (wd : String) : Reachable (Merger.new wd)
  | step (m : Merger) (content : String) :
      Reachable m → Reachable (addContent m content).merger

/-- Invariant satisfied by every key of a reachable aggregation map. -/
def GoodKey (s : String) : Prop :=
  trimChars s.data = s.data ∧ '|' ∉ s.data ∧ '\n' ∉ s.data

/-- Invariant of reachable merger states: trimmed delimiter-free keys,
64-bit counts, and no duplicate keys. -/
def GoodState (m : Merger) : Prop :=
  (∀ kv ∈ m.data, GoodKey kv.1 ∧ int64Min ≤ kv.2 ∧ kv.2 ≤ int64Max) ∧
    (m.data.map Prod.fst).Nodup

/-! ## The run classification of `main.go` -/

def ExitSuccess : Nat := 0
def ExitConfigError : Nat := 1
def ExitFetchError : Nat := 2
def ExitMergeError : Nat := 3
def ExitUploadError : Nat := 4
def ExitPartialError : Nat := 5

/-- Observable outcome of `run`: its return value and whether the
finalization (`SaveToFile`) and delivery (`uploadToFTP`) steps were ever
reached. -/
structure RunReport where
  exit : Nat
  saveAttempted : Bool
  uploadAttempted : Bool
deriving DecidableEq

/-- The control flow of `run` in `main.go`, as a function of the
per-server fetch outcomes (`fetchFromServerWeekly` error-free or not, in
server order) and of whether `SaveToFile` and the upload succeed. -/
def runModel (fetchResults : List Bool) (saveOk uploadOk : Bool) : RunReport :=
  if (fetchResults.filter (fun b => b = true)).length = 0 then
    ⟨ExitFetchError, false, false⟩
  else if saveOk = false then ⟨ExitMergeError, true, false⟩
  else if uploadOk = false then ⟨ExitUploadError, true, true⟩
  else if 0 < (fetchResults.filter (fun b => b = false)).length then
    ⟨ExitPartialError, true, true⟩
  else ⟨ExitSuccess, true, true⟩

/-! ## The transport trust negotiator of `internal/sftp/client.go` -/

/-- The authentication material `getSSHConfig` can append to
`config.Auth`. -/
inductive AuthMethod where
  | password
  | publicKey
deriving DecidableEq

/-- The `authMethods` slice built by `getSSHConfig`: the password first
when non-empty, then the private key when a key path is set and
`loadPrivateKey` succeeds (`keyLoadable`, an environment fact). -/
def buildAuthMethods (password keyPath : String) (keyLoadable : Bool) :
    List AuthMethod :=
  let ms : List AuthMethod := []
  let ms := if password = "" then ms else ms ++ [AuthMethod.password]
  let ms := if keyPath = "" then ms
    else if keyLoadable then ms ++ [AuthMethod.publicKey] else ms
  ms

/-- `getSSHConfig`'s credential outcome: `none` models the
"no authentication method available" error. -/
def selectAuth (password keyPath : String) (keyLoadable : Bool) :
    Option (List AuthMethod) :=
  let ms := buildAuthMethods password keyPath keyLoadable
  if ms.length = 0 then none else some ms

/-- The host-key verification policy `getSSHConfig` actually installs. -/
inductive HostPolicy where
  | insecureIgnore
  | strictKnownHosts
  | tofuFallback
deriving DecidableEq

/-- Policy selection in `getSSHConfig`: `InsecureIgnoreHostKey` when
verification is skipped; otherwise the known-hosts callback when
`getHostKeyCallback` succeeds (`knownHostsUsable`); otherwise the TOFU
callback, with the fallback reported by a `logger.Warn` (the `Bool`). -/
def selectHostPolicy (insecureSkipVerify knownHostsUsable : Bool) :
    HostPolicy × Bool :=
  if insecureSkipVerify then (HostPolicy.insecureIgnore, false)
  else if knownHostsUsable then (HostPolicy.strictKnownHosts, false)
  else (HostPolicy.tofuFallback, true)

/-- The `trustedKeys` pin store of `trustOnFirstUse` (host against
marshalled public key, compared exactly as `keyEqual` does). -/
def lookupPin : List (String × String) → String → Option String
  | [], _ => none
  | (h, k) :: rest, q => if h = q then some k else lookupPin rest q

/-- One invocation of the `trustOnFirstUse` callback: an unknown host is
pinned; a pinned host with a different key is a hard failure (`none`). -/
def tofuVerify (pins : List (String × String)) (host key : String) :
    Option (List (String × String)) :=
  match lookupPin pins host with
  | some k => if k = key then some pins else none
  | none => some (pins ++ [(host, key)])

/-- The callback applied to a sequence of host-key presentations over the
callback's lifetime; a failure aborts (the SSH handshake errors out). -/
def tofuRun (pins : List (String × String)) :
    List (String × String) → Option (List (String × String))
  | [] => some pins
  | e :: es =>
    match tofuVerify pins e.1 e.2 with
    | some pins' => tofuRun pins' es
    | none => none

/-! ## Specification helpers (not part of the embedded code) -/

/-- Folding a batch of `(domain, count)` contributions into the map, one
`m.data[domain] += count` at a time. -/
def foldPairs (l : List (String × Int)) (ps : List (String × Int)) :
    List (String × Int) :=
  ps.foldl (fun a q => dataAdd a q.1 q.2) l

/-- The `(domain, count)` pairs the accepted lines of a token sequence
contribute. -/
def validPairs (raws : List (List Char)) : List (String × Int) :=
  raws.filterMap fun raw =>
    match processLine (dropCR raw) with
    | .valid d n => some (d, n)
    | _ => none

/-- The exact (unbounded) sum of the contributions a pair batch makes to
one domain. -/
def contribSum (d : String) (ps : List (String × Int)) : Int :=
  ((ps.filter fun q => q.1 = d).map Prod.snd).sum

/-- All raw scan tokens of a list of payloads, in processing order. -/
def payloadRawLines (ps : List String) : List (List Char) :=
  (ps.map rawLines).flatten

/-- Every scan token of the payload stays under the scanner's token
limit. -/
abbrev AllShort (content : String) : Prop :=
  ∀ raw ∈ rawLines content, byteLen raw < lineLimit

/-- `AllShort` for every payload of a batch. -/
abbrev AllShortP (ps : List String) : Prop := ∀ p ∈ ps, AllShort p

/-- Sorted by count descending. -/
def SortedDesc (stats : List DomainStats) : Prop :=
  stats.Pairwise fun a b => b.Count ≤ a.Count

/-- First payload of the spec's end-to-end example (source A). -/
def examplePayloadA : String := "x.com|10\ny.com|3"

/-- Second payload of the spec's end-to-end example (source B). -/
def examplePayloadB : String := "x.com|7\nz.com|1"

/-- The merger after ingesting the two example payloads. -/
def exampleMerger : Merger := ingestAll "" [examplePayloadA, examplePayloadB]

/-! ## Basic lemmas: `dropWhile`, `trimChars`, `splitChars` -/

theorem dropWhile_noop {p : Char → Bool} {l : List Char}
    (h : ∀ c, l.head? = some c → p c = false) : l.dropWhile p = l := by
  cases l with
  | nil => rfl
  | cons a as => simp [List.dropWhile_cons, h a rfl]

theorem head?_dropWhile_false {p : Char → Bool} {l : List Char} {c : Char}
    (h : (l.dropWhile p).head? = some c) : p c = false := by
  induction l with
  | nil => simp at h
  | cons a as ih =>
    rw [List.dropWhile_cons] at h
    by_cases hp : p a
    · rw [if_pos hp] at h
      exact ih h
    · rw [if_neg hp] at h
      simp only [List.head?_cons, Option.some.injEq] at h
      rw [← h]
      exact eq_false_of_ne_true hp

theorem dropWhile_idem {p : Char → Bool} {l : List Char} :
    (l.dropWhile p).dropWhile p = l.dropWhile p :=
  dropWhile_noop fun _ h => head?_dropWhile_false h

theorem mem_of_mem_dropWhile {p : Char → Bool} {l : List Char} {c : Char}
    (h : c ∈ l.dropWhile p) : c ∈ l := by
  induction l with
  | nil => simp at h
  | cons a as ih =>
    rw [List.dropWhile_cons] at h
    by_cases hp : p a
    · rw [if_pos hp] at h
      exact List.mem_cons_of_mem _ (ih h)
    · rwa [if_neg hp] at h

theorem getLast?_dropWhile {p : Char → Bool} {l : List Char}
    (h : l.dropWhile p ≠ []) : (l.dropWhile p).getLast? = l.getLast? := by
  induction l with
  | nil => simp at h
  | cons a as ih =>
    rw [List.dropWhile_cons]
    by_cases hp : p a
    · rw [List.dropWhile_cons, if_pos hp] at h
      rw [if_pos hp, ih h]
      cases as with
      | nil => simp [List.dropWhile_nil] at h
      | cons b bs => rw [List.getLast?_cons_cons]
    · rw [if_neg hp]

theorem mem_of_mem_trimChars {l : List Char} {c : Char} (h : c ∈ trimChars l) :
    c ∈ l := by
  unfold trimChars at h
  rw [List.mem_reverse] at h
  have h2 := mem_of_mem_dropWhile h
  rw [List.mem_reverse] at h2
  exact mem_of_mem_dropWhile h2

theorem trimChars_noop {l : List Char} (h : ∀ c ∈ l, isGoSpace c = false) :
    trimChars l = l := by
  have mem_of_head? : ∀ (m : List Char) (c : Char), m.head? = some c → c ∈ m := by
    intro m c hm
    cases m with
    | nil => simp at hm
    | cons a as =>
      simp only [List.head?_cons, Option.some.injEq] at hm
      rw [← hm]
      exact List.mem_cons_self _ _
  unfold trimChars
  rw [dropWhile_noop fun c hc => h c (mem_of_head? _ _ hc)]
  rw [dropWhile_noop fun c hc =>
    h c (List.mem_reverse.mp (mem_of_head? _ _ hc))]
  exact List.reverse_reverse l

theorem trimChars_idem (l : List Char) : trimChars (trimChars l) = trimChars l := by
  unfold trimChars
  have hstep : ((l.dropWhile isGoSpace).reverse.dropWhile
      isGoSpace).reverse.dropWhile isGoSpace =
      ((l.dropWhile isGoSpace).reverse.dropWhile isGoSpace).reverse := by
    apply dropWhile_noop
    intro c hc
    rw [List.head?_reverse] at hc
    have hne : (l.dropWhile isGoSpace).reverse.dropWhile isGoSpace ≠ [] := by
      intro hnil
      rw [hnil] at hc
      simp at hc
    rw [getLast?_dropWhile hne, List.getLast?_reverse] at hc
    exact head?_dropWhile_false hc
  rw [hstep, List.reverse_reverse, dropWhile_idem]

/-! ### `splitChars` -/

theorem consHead_ne_nil (c : Char) (parts : List (List Char)) :
    consHead c parts ≠ [] := by
  cases parts <;> simp [consHead]

theorem splitChars_ne_nil (p : Char → Bool) (l : List Char) :
    splitChars p l ≠ [] := by
  cases l with
  | nil => simp [splitChars]
  | cons c cs =>
    by_cases hp : p c
    · simp [splitChars, hp]
    · simp only [splitChars, hp, Bool.false_eq_true, if_false]
      exact consHead_ne_nil _ _

theorem mem_of_mem_splitChars {p : Char → Bool} {l : List Char}
    {part : List Char} {c : Char}
    (hpart : part ∈ splitChars p l) (hc : c ∈ part) : c ∈ l := by
  induction l generalizing part with
  | nil =>
    simp only [splitChars, List.mem_singleton] at hpart
    rw [hpart] at hc
    simp at hc
  | cons a as ih =>
    by_cases hp : p a
    · simp only [splitChars, hp, if_true, List.mem_cons] at hpart
      rcases hpart with h | h
      · rw [h] at hc; simp at hc
      · exact List.mem_cons_of_mem _ (ih h hc)
    · simp only [splitChars, hp, Bool.false_eq_true, if_false] at hpart
      cases hsp : splitChars p as with
      | nil => exact absurd hsp (splitChars_ne_nil p as)
      | cons h t =>
        rw [hsp] at hpart
        simp only [consHead, List.mem_cons] at hpart
        rcases hpart with h1 | h1
        · rw [h1] at hc
          rcases List.mem_cons.mp hc with rfl | hc2
          · exact List.mem_cons_self _ _
          · exact List.mem_cons_of_mem _
              (ih (hsp ▸ List.mem_cons_self _ _) hc2)
        · exact List.mem_cons_of_mem _
            (ih (hsp ▸ List.mem_cons_of_mem _ h1) hc)

theorem sep_not_mem_splitChars {p : Char → Bool} {l : List Char}
    {part : List Char} {c : Char}
    (hpart : part ∈ splitChars p l) (hc : c ∈ part) : p c = false := by
  induction l generalizing part with
  | nil =>
    simp only [splitChars, List.mem_singleton] at hpart
    rw [hpart] at hc
    simp at hc
  | cons a as ih =>
    by_cases hp : p a
    · simp only [splitChars, hp, if_true, List.mem_cons] at hpart
      rcases hpart with h | h
      · rw [h] at hc; simp at hc
      · exact ih h hc
    · simp only [splitChars, hp, Bool.false_eq_true, if_false] at hpart
      cases hsp : splitChars p as with
      | nil => exact absurd hsp (splitChars_ne_nil p as)
      | cons h t =>
        rw [hsp] at hpart
        simp only [consHead, List.mem_cons] at hpart
        rcases hpart with h1 | h1
        · rw [h1] at hc
          rcases List.mem_cons.mp hc with rfl | hc2
          · exact eq_false_of_ne_true hp
          · exact ih (hsp ▸ List.mem_cons_self _ _) hc2
        · exact ih (hsp ▸ List.mem_cons_of_mem _ h1) hc

theorem splitChars_append {p : Char → Bool} {a : List Char} {s : Char}
    {b : List Char} (ha : ∀ c ∈ a, p c = false) (hs : p s = true) :
    splitChars p (a ++ s :: b) = a :: splitChars p b := by
  induction a with
  | nil => simp [splitChars, hs]
  | cons x xs ih =>
    have hx : p x = false := ha x (List.mem_cons_self _ _)
    rw [List.cons_append]
    simp only [splitChars, hx, Bool.false_eq_true, if_false]
    rw [ih fun c hc => ha c (List.mem_cons_of_mem _ hc)]
    simp [consHead]

theorem splitChars_single {p : Char → Bool} {l : List Char}
    (h : ∀ c ∈ l, p c = false) : splitChars p l = [l] := by
  induction l with
  | nil => rfl
  | cons x xs ih =>
    have hx : p x = false := h x (List.mem_cons_self _ _)
    simp only [splitChars, hx, Bool.false_eq_true, if_false]
    rw [ih fun c hc => h c (List.mem_cons_of_mem _ hc)]
    simp [consHead]

/-! ### Decimal printing and parsing -/

theorem digitChar_props {d : Nat} (h : d < 10) :
    digitVal? (digitChar d) = some d ∧ digitChar d ≠ '-' ∧ digitChar d ≠ '+' ∧
    digitChar d ≠ '|' ∧ digitChar d ≠ '\n' ∧ digitChar d ≠ '\x0d' ∧
    isGoSpace (digitChar d) = false := by
  interval_cases d <;> exact ⟨by decide, by decide, by decide, by decide,
    by decide, by decide, by decide⟩

theorem digitsValAux_append (acc : Nat) (l1 l2 : List Char) :
    digitsValAux acc (l1 ++ l2) =
      match digitsValAux acc l1 with
      | some a => digitsValAux a l2
      | none => none := by
  induction l1 generalizing acc with
  | nil => rfl
  | cons c cs ih =>
    simp only [List.cons_append, digitsValAux]
    cases digitVal? c with
    | some d => exact ih _
    | none => rfl

theorem natDigitsAux_spec : ∀ fuel n, n < fuel →
    (∀ c ∈ natDigitsAux fuel n, ∃ d, d < 10 ∧ c = digitChar d) ∧
    natDigitsAux fuel n ≠ [] ∧
    (∀ acc, digitsValAux acc (natDigitsAux fuel n) =
      some (acc * 10 ^ (natDigitsAux fuel n).length + n)) := by
  intro fuel
  induction fuel with
  | zero => intro n hn; omega
  | succ fuel ih =>
    intro n hn
    by_cases h10 : n < 10
    · refine ⟨?_, ?_, ?_⟩
      · intro c hc
        simp only [natDigitsAux, if_pos h10, List.mem_singleton] at hc
        exact ⟨n, h10, hc⟩
      · simp [natDigitsAux, if_pos h10]
      · intro acc
        simp only [natDigitsAux, if_pos h10, digitsValAux,
          (digitChar_props h10).1, List.length_singleton, pow_one]
    · have hdiv : n / 10 < fuel := by omega
      obtain ⟨ihmem, ihne, ihval⟩ := ih (n / 10) hdiv
      refine ⟨?_, ?_, ?_⟩
      · intro c hc
        simp only [natDigitsAux, if_neg h10, List.mem_append,
          List.mem_singleton] at hc
        rcases hc with hc | hc
        · exact ihmem c hc
        · exact ⟨n % 10, Nat.mod_lt n (by omega), hc⟩
      · simp [natDigitsAux, if_neg h10]
      · intro acc
        simp only [natDigitsAux, if_neg h10]
        rw [digitsValAux_append, ihval acc]
        simp only [digitsValAux, (digitChar_props (Nat.mod_lt n (by omega))).1]
        rw [List.length_append, List.length_singleton]
        congr 1
        have hdm : n / 10 * 10 + n % 10 = n := by omega
        rw [pow_succ]
        calc (acc * 10 ^ (natDigitsAux fuel (n / 10)).length + n / 10) * 10 + n % 10
            = acc * (10 ^ (natDigitsAux fuel (n / 10)).length * 10) +
              (n / 10 * 10 + n % 10) := by ring
          _ = acc * (10 ^ (natDigitsAux fuel (n / 10)).length * 10) + n := by
              rw [hdm]

theorem natDigits_mem {n : Nat} {c : Char} (hc : c ∈ natDigits n) :
    ∃ d, d < 10 ∧ c = digitChar d :=
  (natDigitsAux_spec (n + 1) n (Nat.lt_succ_self n)).1 c hc

theorem natDigits_ne_nil (n : Nat) : natDigits n ≠ [] :=
  (natDigitsAux_spec (n + 1) n (Nat.lt_succ_self n)).2.1

theorem digitsVal_natDigits (n : Nat) : digitsVal (natDigits n) = some n := by
  have hval := (natDigitsAux_spec (n + 1) n (Nat.lt_succ_self n)).2.2 0
  rw [show natDigitsAux (n + 1) n = natDigits n from rfl] at hval
  cases hnd : natDigits n with
  | nil => exact absurd hnd (natDigits_ne_nil n)
  | cons c cs =>
    rw [hnd] at hval
    simpa [digitsVal] using hval

theorem getLast?_exists_mem {l : List Char} (h : l ≠ []) :
    ∃ c, l.getLast? = some c ∧ c ∈ l := by
  induction l with
  | nil => exact absurd rfl h
  | cons a as ih =>
    cases has : as with
    | nil => exact ⟨a, rfl, List.mem_cons_self _ _⟩
    | cons b bs =>
      obtain ⟨c, hc1, hc2⟩ := ih (by simp [has])
      rw [has] at hc1 hc2
      exact ⟨c, by rw [List.getLast?_cons_cons]; exact hc1,
        List.mem_cons_of_mem _ (has ▸ hc2)⟩

theorem intChars_mem {i : Int} {c : Char} (hc : c ∈ intChars i) :
    c = '-' ∨ ∃ d, d < 10 ∧ c = digitChar d := by
  unfold intChars at hc
  by_cases hi : i < 0
  · rw [if_pos hi] at hc
    rcases List.mem_cons.mp hc with h | h
    · exact Or.inl h
    · exact Or.inr (natDigits_mem h)
  · rw [if_neg hi] at hc
    exact Or.inr (natDigits_mem hc)

theorem intChars_ne_nil (i : Int) : intChars i ≠ [] := by
  unfold intChars
  by_cases hi : i < 0
  · simp [if_pos hi]
  · rw [if_neg hi]
    exact natDigits_ne_nil _

theorem getLast?_intChars (i : Int) :
    ∃ d, d < 10 ∧ (intChars i).getLast? = some (digitChar d) := by
  unfold intChars
  by_cases hi : i < 0
  · rw [if_pos hi]
    obtain ⟨c, hc1, hc2⟩ := getLast?_exists_mem (natDigits_ne_nil (-i).toNat)
    obtain ⟨d, hd, rfl⟩ := natDigits_mem hc2
    refine ⟨d, hd, ?_⟩
    cases hnd : natDigits (-i).toNat with
    | nil => exact absurd hnd (natDigits_ne_nil _)
    | cons b bs =>
      rw [List.getLast?_cons_cons]
      rw [hnd] at hc1
      exact hc1
  · rw [if_neg hi]
    obtain ⟨c, hc1, hc2⟩ := getLast?_exists_mem (natDigits_ne_nil i.toNat)
    obtain ⟨d, hd, rfl⟩ := natDigits_mem hc2
    exact ⟨d, hd, hc1⟩

theorem atoiMag_natDigits_true {n : Nat} {i : Int} (hn : (n : Int) = -i)
    (h1 : int64Min ≤ i) (h2 : i ≤ int64Max) :
    atoiMag true (natDigits n) = some i := by
  unfold atoiMag
  rw [digitsVal_natDigits]
  simp only [if_true, hn, neg_neg]
  rw [if_pos (And.intro h1 h2)]

theorem atoiMag_natDigits_false {n : Nat} {i : Int} (hn : (n : Int) = i)
    (h1 : int64Min ≤ i) (h2 : i ≤ int64Max) :
    atoiMag false (natDigits n) = some i := by
  unfold atoiMag
  rw [digitsVal_natDigits]
  simp only [Bool.false_eq_true, if_false, hn]
  rw [if_pos (And.intro h1 h2)]

theorem atoiChars_intChars {i : Int} (h1 : int64Min ≤ i) (h2 : i ≤ int64Max) :
    atoiChars (intChars i) = some i := by
  by_cases hi : i < 0
  · have hchars : intChars i = '-' :: natDigits (-i).toNat := by
      unfold intChars; rw [if_pos hi]
    have htn : ((-i).toNat : Int) = -i := Int.toNat_of_nonneg (by omega)
    rw [hchars]
    simp only [atoiChars, if_pos rfl, if_true]
    exact atoiMag_natDigits_true htn h1 h2
  · have hchars : intChars i = natDigits i.toNat := by
      unfold intChars; rw [if_neg hi]
    have hne := natDigits_ne_nil i.toNat
    cases hnd : natDigits i.toNat with
    | nil => exact absurd hnd hne
    | cons c cs =>
      have hcmem : c ∈ natDigits i.toNat := hnd ▸ List.mem_cons_self _ _
      obtain ⟨d, hd, rfl⟩ := natDigits_mem hcmem
      have hprops := digitChar_props hd
      have htn : (i.toNat : Int) = i := Int.toNat_of_nonneg (by omega)
      rw [hchars, hnd]
      simp only [atoiChars, if_neg hprops.2.1, if_neg hprops.2.2.1]
      rw [← hnd]
      exact atoiMag_natDigits_false htn h1 h2

/-! ### `wrap64` -/

theorem two_pow_64_eq : (2 : Int) ^ 64 = 18446744073709551616 := by norm_num

theorem two_pow_63_eq : (2 : Int) ^ 63 = 9223372036854775808 := by norm_num

theorem wrap64_eq_self {i : Int} (h1 : int64Min ≤ i) (h2 : i ≤ int64Max) :
    wrap64 i = i := by
  simp only [wrap64, int64Min, int64Max, two_pow_64_eq, two_pow_63_eq] at h1 h2 ⊢
  omega

theorem wrap64_range (i : Int) : int64Min ≤ wrap64 i ∧ wrap64 i ≤ int64Max := by
  unfold wrap64 int64Min int64Max
  rw [two_pow_64_eq, two_pow_63_eq]
  omega

theorem wrap64_absorb (a b : Int) : wrap64 (wrap64 a + b) = wrap64 (a + b) := by
  unfold wrap64
  rw [two_pow_64_eq, two_pow_63_eq]
  omega

theorem wrap64_zero : wrap64 0 = 0 := by
  unfold wrap64
  rw [two_pow_64_eq, two_pow_63_eq]
  omega

/-! ### The aggregation map: `dataAdd`, `lookupCount`, `foldPairs` -/

theorem lookupCount_dataAdd (l : List (String × Int)) (k : String) (v : Int)
    (d : String) :
    lookupCount (dataAdd l k v) d =
      if k = d then wrap64 (lookupCount l d + v) else lookupCount l d := by
  induction l with
  | nil =>
    by_cases h : k = d <;> simp [dataAdd, lookupCount, h, zero_add]
  | cons kv rest ih =>
    obtain ⟨k', v'⟩ := kv
    by_cases hk : k' = k
    · subst hk
      by_cases hd : k' = d
      · subst hd
        simp [dataAdd, lookupCount]
      · simp [dataAdd, lookupCount, hd]
    · by_cases hd : k' = d
      · subst hd
        have hkd : ¬k = k' := fun h => hk h.symm
        simp [dataAdd, lookupCount, hk, hkd]
      · simp [dataAdd, lookupCount, hk, hd, ih]

theorem mem_keys_dataAdd {l : List (String × Int)} {k : String} {v : Int}
    {x : String} (h : x ∈ (dataAdd l k v).map Prod.fst) :
    x ∈ l.map Prod.fst ∨ x = k := by
  induction l with
  | nil =>
    simp [dataAdd] at h
    exact Or.inr h
  | cons kv rest ih =>
    obtain ⟨k', v'⟩ := kv
    by_cases hk : k' = k
    · subst hk
      simp [dataAdd] at h
      simpa using Or.inl h
    · simp only [dataAdd, if_neg hk, List.map_cons, List.mem_cons] at h
      rcases h with h | h
      · exact Or.inl (by simp [h])
      · rcases ih h with h2 | h2
        · exact Or.inl (List.mem_cons_of_mem _ h2)
        · exact Or.inr h2

theorem keys_dataAdd_nodup {l : List (String × Int)} {k : String} {v : Int}
    (h : (l.map Prod.fst).Nodup) : ((dataAdd l k v).map Prod.fst).Nodup := by
  induction l with
  | nil => simp [dataAdd]
  | cons kv rest ih =>
    obtain ⟨k', v'⟩ := kv
    rw [List.map_cons, List.nodup_cons] at h
    by_cases hk : k' = k
    · subst hk
      simp only [dataAdd, if_pos rfl, if_true, List.map_cons, List.nodup_cons]
      exact h
    · simp only [dataAdd, if_neg hk, List.map_cons, List.nodup_cons]
      refine ⟨fun hmem => ?_, ih h.2⟩
      rcases mem_keys_dataAdd hmem with h2 | h2
      · exact h.1 h2
      · exact hk h2

theorem mem_dataAdd {l : List (String × Int)} {k : String} {v : Int}
    {kv' : String × Int} (h : kv' ∈ dataAdd l k v) :
    kv' ∈ l ∨ (kv'.1 ∈ k :: l.map Prod.fst ∧ ∃ w, kv'.2 = wrap64 w) := by
  induction l with
  | nil =>
    have h2 : kv' = (k, wrap64 v) := by simpa [dataAdd] using h
    subst h2
    exact Or.inr ⟨List.mem_cons_self _ _, v, rfl⟩
  | cons kv rest ih =>
    obtain ⟨k', v'⟩ := kv
    by_cases hk : k' = k
    · subst hk
      simp only [dataAdd, if_pos rfl, if_true, List.mem_cons] at h
      rcases h with h | h
      · exact Or.inr ⟨by simp [h], v' + v, by simp [h]⟩
      · exact Or.inl (List.mem_cons_of_mem _ h)
    · simp only [dataAdd, if_neg hk, List.mem_cons] at h
      rcases h with h | h
      · exact Or.inl (by simp [h])
      · rcases ih h with h2 | h2
        · exact Or.inl (List.mem_cons_of_mem _ h2)
        · refine Or.inr ⟨?_, h2.2⟩
          rcases List.mem_cons.mp h2.1 with h3 | h3
          · exact h3 ▸ List.mem_cons_self _ _
          · exact List.mem_cons_of_mem _ (by simpa using Or.inr h3)

theorem lookupCount_eq_zero_of_not_mem {l : List (String × Int)} {d : String}
    (h : d ∉ l.map Prod.fst) : lookupCount l d = 0 := by
  induction l with
  | nil => rfl
  | cons kv rest ih =>
    obtain ⟨k, v⟩ := kv
    simp only [List.map_cons, List.mem_cons] at h
    push_neg at h
    simp only [lookupCount, if_neg (Ne.symm h.1), ih h.2]

theorem lookupCount_of_mem_nodup {l : List (String × Int)}
    (hn : (l.map Prod.fst).Nodup) {d : String} {c : Int} (h : (d, c) ∈ l) :
    lookupCount l d = c := by
  induction l with
  | nil => simp at h
  | cons kv rest ih =>
    obtain ⟨k, v⟩ := kv
    rw [List.map_cons, List.nodup_cons] at hn
    rcases List.mem_cons.mp h with h1 | h1
    · injection h1 with h1a h1b
      subst h1a
      subst h1b
      simp [lookupCount]
    · have hkd : k ≠ d := by
        intro he
        subst he
        exact hn.1 (List.mem_map.mpr ⟨(k, c), h1, rfl⟩)
      simp only [lookupCount, if_neg hkd]
      exact ih hn.2 h1

theorem filter_key_nil_of_not_mem {l : List (String × Int)} {d : String}
    (h : d ∉ l.map Prod.fst) : l.filter (fun q => q.1 = d) = [] := by
  induction l with
  | nil => rfl
  | cons kv rest ih =>
    obtain ⟨k, v⟩ := kv
    simp only [List.map_cons, List.mem_cons] at h
    push_neg at h
    have hkd : k ≠ d := Ne.symm h.1
    simp only [List.filter_cons]
    rw [if_neg (by simp [hkd]), ih h.2]

theorem filter_key_of_mem_nodup {l : List (String × Int)}
    (hn : (l.map Prod.fst).Nodup) {d : String} {c : Int} (h : (d, c) ∈ l) :
    l.filter (fun q => q.1 = d) = [(d, c)] := by
  induction l with
  | nil => simp at h
  | cons kv rest ih =>
    obtain ⟨k, v⟩ := kv
    rw [List.map_cons, List.nodup_cons] at hn
    rcases List.mem_cons.mp h with h1 | h1
    · injection h1 with h1a h1b
      subst h1a
      subst h1b
      simp only [List.filter_cons]
      rw [if_pos (by simp), filter_key_nil_of_not_mem hn.1]
    · have hkd : k ≠ d := by
        intro he
        subst he
        exact hn.1 (List.mem_map.mpr ⟨(k, c), h1, rfl⟩)
      simp only [List.filter_cons]
      rw [if_neg (by simp [hkd]), ih hn.2 h1]

theorem contribSum_cons_eq (d : String) (v : Int) (qs : List (String × Int)) :
    contribSum d ((d, v) :: qs) = v + contribSum d qs := by
  simp [contribSum, List.filter_cons]

theorem contribSum_cons_ne {k d : String} (hk : k ≠ d) (v : Int)
    (qs : List (String × Int)) :
    contribSum d ((k, v) :: qs) = contribSum d qs := by
  simp [contribSum, List.filter_cons, hk]

theorem contribSum_eq_zero_of_filter_nil {d : String}
    {qs : List (String × Int)} (h : (qs.filter fun q => q.1 = d) = []) :
    contribSum d qs = 0 := by
  simp [contribSum, h]

theorem lookupCount_foldPairs (ps : List (String × Int))
    (l : List (String × Int)) (d : String) :
    lookupCount (foldPairs l ps) d =
      if (ps.filter fun q => q.1 = d) = [] then lookupCount l d
      else wrap64 (lookupCount l d + contribSum d ps) := by
  induction ps generalizing l with
  | nil => simp [foldPairs, contribSum]
  | cons q qs ih =>
    obtain ⟨k, v⟩ := q
    have hstep : foldPairs l ((k, v) :: qs) = foldPairs (dataAdd l k v) qs := rfl
    rw [hstep, ih]
    by_cases hk : k = d
    · subst hk
      have hfil : ((((k, v) :: qs)).filter fun q => q.1 = k) =
          (k, v) :: (qs.filter fun q => q.1 = k) := by
        simp [List.filter_cons]
      rw [hfil, if_neg (List.cons_ne_nil _ _), contribSum_cons_eq,
        lookupCount_dataAdd, if_pos rfl]
      by_cases hq : (qs.filter fun q => q.1 = k) = []
      · rw [if_pos hq, contribSum_eq_zero_of_filter_nil hq, add_zero]
      · rw [if_neg hq, wrap64_absorb, add_assoc]
    · have hfil : ((((k, v) :: qs)).filter fun q => q.1 = d) =
          qs.filter fun q => q.1 = d := by
        simp [List.filter_cons, hk]
      rw [hfil, contribSum_cons_ne hk, lookupCount_dataAdd, if_neg hk]

/-! ### The `AddContent` scan loop -/

theorem addContentAux_cons_long {raw : List Char} (h : lineLimit ≤ byteLen raw)
    (m : Merger) (p s : Nat) (rest : List (List Char)) :
    addContentAux m p s (raw :: rest) =
      ⟨m, p, s, some "error reading content: bufio.Scanner: token too long"⟩ := by
  simp only [addContentAux]
  rw [if_pos h]

theorem addContentAux_cons_short {raw : List Char} (h : byteLen raw < lineLimit)
    (m : Merger) (p s : Nat) (rest : List (List Char)) :
    addContentAux m p s (raw :: rest) =
      match processLine (dropCR raw) with
      | .empty => addContentAux m p s rest
      | .invalid => addContentAux m p (s + 1) rest
      | .valid d n =>
        addContentAux ⟨dataAdd m.data d n, m.workDir⟩ (p + 1) s rest := by
  simp only [addContentAux]
  rw [if_neg (not_le.mpr h)]

theorem addContentAux_spec (raws : List (List Char)) :
    ∀ (m : Merger) (p s : Nat), (∀ raw ∈ raws, byteLen raw < lineLimit) →
      (addContentAux m p s raws).merger.data = foldPairs m.data (validPairs raws) ∧
      (addContentAux m p s raws).merger.workDir = m.workDir ∧
      (addContentAux m p s raws).err = none := by
  induction raws with
  | nil => exact fun m p s _ => ⟨rfl, rfl, rfl⟩
  | cons raw rest ih =>
    intro m p s h
    have hshort := h raw (List.mem_cons_self _ _)
    have hrest := fun r hr => h r (List.mem_cons_of_mem _ hr)
    rw [addContentAux_cons_short hshort]
    cases hpl : processLine (dropCR raw) with
    | empty =>
      have hvp : validPairs (raw :: rest) = validPairs rest := by
        simp [validPairs, hpl]
      rw [hvp]
      exact ih m p s hrest
    | invalid =>
      have hvp : validPairs (raw :: rest) = validPairs rest := by
        simp [validPairs, hpl]
      rw [hvp]
      exact ih m p (s + 1) hrest
    | valid d n =>
      have hvp : validPairs (raw :: rest) = (d, n) :: validPairs rest := by
        simp [validPairs, hpl]
      rw [hvp]
      have hfold : foldPairs m.data ((d, n) :: validPairs rest) =
          foldPairs (dataAdd m.data d n) (validPairs rest) := rfl
      rw [hfold]
      exact ih ⟨dataAdd m.data d n, m.workDir⟩ (p + 1) s hrest

theorem addContentAux_err_none_iff (raws : List (List Char)) :
    ∀ (m : Merger) (p s : Nat),
      (addContentAux m p s raws).err = none ↔
        ∀ raw ∈ raws, byteLen raw < lineLimit := by
  induction raws with
  | nil => simp [addContentAux]
  | cons raw rest ih =>
    intro m p s
    by_cases hlong : lineLimit ≤ byteLen raw
    · rw [addContentAux_cons_long hlong]
      simp only [List.mem_cons]
      constructor
      · intro h
        exact absurd h (by simp)
      · intro h
        exact absurd (h raw (Or.inl rfl)) (not_lt.mpr hlong)
    · have hshort := not_le.mp hlong
      rw [addContentAux_cons_short hshort]
      cases processLine (dropCR raw) with
      | empty =>
        rw [ih m p s]
        simp [hshort]
      | invalid =>
        rw [ih m p (s + 1)]
        simp [hshort]
      | valid d n =>
        rw [ih ⟨dataAdd m.data d n, m.workDir⟩ (p + 1) s]
        simp [hshort]

/-! ### `rawLines` -/

theorem mem_of_mem_dropLastEmpty {parts : List (List Char)} {x : List Char}
    (h : x ∈ dropLastEmpty parts) : x ∈ parts := by
  unfold dropLastEmpty at h
  split at h
  · exact (List.dropLast_sublist _).subset h
  · exact h

theorem no_newline_of_mem_rawLines {content : String} {raw : List Char}
    (h : raw ∈ rawLines content) : '\n' ∉ raw := by
  intro hc
  have h2 := mem_of_mem_dropLastEmpty h
  have h3 := sep_not_mem_splitChars h2 hc
  simp at h3

theorem splitChars_newline_flatten (lines : List (List Char))
    (h : ∀ l ∈ lines, '\n' ∉ l) :
    splitChars (fun c => c = '\n') (lines.map (· ++ ['\n'])).flatten =
      lines ++ [[]] := by
  induction lines with
  | nil => rfl
  | cons l ls ih =>
    have hl : ∀ c ∈ l, (fun c => decide (c = '\n')) c = false := by
      intro c hc
      simp only [decide_eq_false_iff_not]
      intro he
      exact h l (List.mem_cons_self _ _) (he ▸ hc)
    rw [List.map_cons, List.flatten_cons, List.append_assoc,
      List.singleton_append, splitChars_append hl (by decide),
      ih fun x hx => h x (List.mem_cons_of_mem _ hx), List.cons_append]

theorem rawLines_flatten (lines : List (List Char))
    (h : ∀ l ∈ lines, '\n' ∉ l) :
    rawLines ⟨(lines.map (· ++ ['\n'])).flatten⟩ = lines := by
  unfold rawLines
  rw [show String.data ⟨(lines.map (· ++ ['\n'])).flatten⟩ =
    (lines.map (· ++ ['\n'])).flatten from rfl]
  rw [splitChars_newline_flatten lines h]
  unfold dropLastEmpty
  rw [List.getLast?_concat]
  exact List.dropLast_concat ..

theorem rawLines_no_newline {l : List Char} (h1 : '\n' ∉ l) (h2 : l ≠ []) :
    rawLines ⟨l⟩ = [l] := by
  unfold rawLines
  rw [show String.data ⟨l⟩ = l from rfl]
  have hall : ∀ c ∈ l, (fun c => decide (c = '\n')) c = false := by
    intro c hc
    simp only [decide_eq_false_iff_not]
    intro he
    exact h1 (he ▸ hc)
  rw [splitChars_single hall]
  cases l with
  | nil => exact absurd rfl h2
  | cons c cs => rfl

/-! ### Inversion lemmas and the reachable-state invariant -/

theorem atoiMag_range {neg : Bool} {ds : List Char} {n : Int}
    (h : atoiMag neg ds = some n) : int64Min ≤ n ∧ n ≤ int64Max := by
  unfold atoiMag at h
  split at h
  · exact absurd h (by simp)
  · split at h
    · split at h
      · rename_i hrange
        injection h with h1
        exact h1 ▸ hrange
      · exact absurd h (by simp)
    · split at h
      · rename_i hrange
        injection h with h1
        exact h1 ▸ hrange
      · exact absurd h (by simp)

theorem atoiChars_range {l : List Char} {n : Int} (h : atoiChars l = some n) :
    int64Min ≤ n ∧ n ≤ int64Max := by
  unfold atoiChars at h
  split at h
  · exact absurd h (by simp)
  · split at h
    · exact atoiMag_range h
    · split at h
      · exact atoiMag_range h
      · exact atoiMag_range h

theorem processLine_valid_inv {l : List Char} {d : String} {n : Int}
    (h : processLine l = .valid d n) :
    ∃ p0 p1, splitChars (fun c => c = '|') l = [p0, p1] ∧
      d = ⟨trimChars p0⟩ ∧ atoiChars (trimChars p1) = some n := by
  unfold processLine at h
  split at h
  · exact absurd h (by simp)
  · split at h
    · rename_i p0 p1 heq
      split at h
      · rename_i m hm
        injection h with h1 h2
        exact ⟨p0, p1, heq, h1.symm, h2 ▸ hm⟩
      · exact absurd h (by simp)
    · exact absurd h (by simp)

theorem mem_of_mem_dropCR {l : List Char} {c : Char} (h : c ∈ dropCR l) :
    c ∈ l := by
  unfold dropCR at h
  split at h
  · exact (List.dropLast_sublist _).subset h
  · exact h

theorem goodEntry_of_valid {l : List Char} {d : String} {n : Int}
    (hln : '\n' ∉ l) (h : processLine l = .valid d n) :
    GoodKey d ∧ int64Min ≤ n ∧ n ≤ int64Max := by
  obtain ⟨p0, p1, hsp, hd, hat⟩ := processLine_valid_inv h
  have hp0 : p0 ∈ splitChars (fun c => c = '|') l := by
    rw [hsp]
    exact List.mem_cons_self _ _
  subst hd
  refine ⟨⟨?_, ?_, ?_⟩, atoiChars_range hat⟩
  · exact trimChars_idem p0
  · intro hc
    have h2 := sep_not_mem_splitChars hp0 (mem_of_mem_trimChars hc)
    simp at h2
  · intro hc
    exact hln (mem_of_mem_splitChars hp0 (mem_of_mem_trimChars hc))

theorem goodEntries_dataAdd {l : List (String × Int)} {k : String} {v : Int}
    (hl : ∀ kv ∈ l, GoodKey kv.1 ∧ int64Min ≤ kv.2 ∧ kv.2 ≤ int64Max)
    (hk : GoodKey k) :
    ∀ kv ∈ dataAdd l k v, GoodKey kv.1 ∧ int64Min ≤ kv.2 ∧ kv.2 ≤ int64Max := by
  intro kv hkv
  rcases mem_dataAdd hkv with h | ⟨hkey, w, hval⟩
  · exact hl kv h
  · refine ⟨?_, hval ▸ wrap64_range w⟩
    rcases List.mem_cons.mp hkey with h1 | h1
    · exact h1 ▸ hk
    · obtain ⟨kv0, hkv0, heq⟩ := List.mem_map.mp h1
      exact heq ▸ (hl kv0 hkv0).1

theorem goodState_new (wd : String) : GoodState (Merger.new wd) :=
  ⟨fun _ h => absurd h (List.not_mem_nil _), List.nodup_nil⟩

theorem goodState_addContentAux (raws : List (List Char)) :
    ∀ (m : Merger) (p s : Nat), (∀ raw ∈ raws, '\n' ∉ raw) → GoodState m →
      GoodState (addContentAux m p s raws).merger := by
  induction raws with
  | nil => exact fun m p s _ hm => hm
  | cons raw rest ih =>
    intro m p s h hm
    have hrest := fun r hr => h r (List.mem_cons_of_mem _ hr)
    by_cases hlong : lineLimit ≤ byteLen raw
    · rw [addContentAux_cons_long hlong]
      exact hm
    · rw [addContentAux_cons_short (not_le.mp hlong)]
      cases hpl : processLine (dropCR raw) with
      | empty => exact ih m p s hrest hm
      | invalid => exact ih m p (s + 1) hrest hm
      | valid d n =>
        apply ih _ (p + 1) s hrest
        have hln : '\n' ∉ dropCR raw := by
          intro hc
          exact h raw (List.mem_cons_self _ _) (mem_of_mem_dropCR hc)
        obtain ⟨hgk, _, _⟩ := goodEntry_of_valid hln hpl
        exact ⟨goodEntries_dataAdd hm.1 hgk, keys_dataAdd_nodup hm.2⟩

theorem reachable_goodState {m : Merger} (h : Reachable m) : GoodState m := by
  induction h with
  | new wd => exact goodState_new wd
  | step m content _ ih =>
    unfold addContent
    exact goodState_addContentAux _ m 0 0
      (fun raw hraw => no_newline_of_mem_rawLines hraw) ih

/-! ### Serialized lines parse back -/

theorem string_eta (s : String) : (⟨s.data⟩ : String) = s := rfl

theorem intChars_not_space {i : Int} : ∀ c ∈ intChars i, isGoSpace c = false := by
  intro c hc
  rcases intChars_mem hc with h | ⟨d, hd, rfl⟩
  · rw [h]; decide
  · exact (digitChar_props hd).2.2.2.2.2.2

theorem intChars_no_pipe {i : Int} :
    ∀ c ∈ intChars i, (fun c => decide (c = '|')) c = false := by
  intro c hc
  rcases intChars_mem hc with h | ⟨d, hd, rfl⟩
  · rw [h]; decide
  · simp only [decide_eq_false_iff_not]
    exact (digitChar_props hd).2.2.2.1

theorem lineChars_no_newline {st : DomainStats} (hd : '\n' ∉ st.Domain.data) :
    '\n' ∉ lineChars st := by
  intro h
  rcases List.mem_append.mp h with h1 | h1
  · exact hd h1
  · rcases List.mem_cons.mp h1 with h2 | h2
    · exact absurd h2 (by decide)
    · rcases intChars_mem h2 with h3 | ⟨d, hd10, h3⟩
      · exact absurd h3 (by decide)
      · exact (digitChar_props hd10).2.2.2.2.1 h3.symm

theorem getLast?_cons_of_ne_nil {a : Char} {l : List Char} (h : l ≠ []) :
    (a :: l).getLast? = l.getLast? := by
  cases l with
  | nil => exact absurd rfl h
  | cons b bs => exact List.getLast?_cons_cons ..

theorem dropCR_lineChars (st : DomainStats) :
    dropCR (lineChars st) = lineChars st := by
  obtain ⟨d, hd, hlast⟩ := getLast?_intChars st.Count
  have hlast2 : (lineChars st).getLast? = some (digitChar d) := by
    unfold lineChars
    rw [List.getLast?_append, getLast?_cons_of_ne_nil (intChars_ne_nil _), hlast]
    rfl
  unfold dropCR
  rw [if_neg]
  rw [hlast2]
  intro hcon
  injection hcon with hcon2
  exact (digitChar_props hd).2.2.2.2.2.1 hcon2

theorem processLine_lineChars {st : DomainStats} (hgood : GoodKey st.Domain)
    (h1 : int64Min ≤ st.Count) (h2 : st.Count ≤ int64Max) :
    processLine (dropCR (lineChars st)) =
      LineResult.valid st.Domain st.Count := by
  rw [dropCR_lineChars]
  have hne : lineChars st ≠ [] := by
    unfold lineChars
    simp
  have hdom : ∀ c ∈ st.Domain.data, (fun c => decide (c = '|')) c = false := by
    intro c hc
    simp only [decide_eq_false_iff_not]
    intro he
    exact hgood.2.1 (he ▸ hc)
  have hsplit : splitChars (fun c => c = '|') (lineChars st) =
      [st.Domain.data, intChars st.Count] := by
    unfold lineChars
    rw [splitChars_append hdom (by decide), splitChars_single intChars_no_pipe]
  have htr : trimChars (intChars st.Count) = intChars st.Count :=
    trimChars_noop intChars_not_space
  unfold processLine
  rw [if_neg hne, hsplit]
  simp only [htr, atoiChars_intChars h1 h2, hgood.1, string_eta]

/-! ### `rawLines` of a serialized aggregate -/

theorem rawLines_serializeStats (stats : List DomainStats)
    (h : ∀ st ∈ stats, '\n' ∉ st.Domain.data) :
    rawLines (serializeStats stats) = stats.map lineChars := by
  unfold serializeStats serializeChars
  rw [show (fun st => lineChars st ++ ['\n']) =
    ((· ++ ['\n']) ∘ lineChars) from rfl, ← List.map_map]
  refine rawLines_flatten _ ?_
  intro l hl
  obtain ⟨st, hst, rfl⟩ := List.mem_map.mp hl
  exact lineChars_no_newline (h st hst)

/-! ### `sortStats`: permutation and sortedness -/

theorem insertStat_perm (x : DomainStats) (l : List DomainStats) :
    (insertStat x l).Perm (x :: l) := by
  induction l with
  | nil => exact List.Perm.refl _
  | cons y ys ih =>
    unfold insertStat
    split
    · exact List.Perm.refl _
    · exact (ih.cons y).trans (List.Perm.swap x y ys)

theorem sortStats_perm (l : List DomainStats) : (sortStats l).Perm l := by
  induction l with
  | nil => exact List.Perm.refl _
  | cons x xs ih => exact (insertStat_perm x (sortStats xs)).trans (ih.cons x)

theorem mem_insertStat {z x : DomainStats} {l : List DomainStats} :
    z ∈ insertStat x l ↔ z = x ∨ z ∈ l := by
  rw [(insertStat_perm x l).mem_iff]
  exact List.mem_cons

theorem insertStat_sorted {x : DomainStats} {l : List DomainStats}
    (h : SortedDesc l) : SortedDesc (insertStat x l) := by
  induction l with
  | nil => exact List.pairwise_singleton ..
  | cons y ys ih =>
    rw [SortedDesc, List.pairwise_cons] at h
    unfold insertStat
    split
    · rename_i hxy
      rw [SortedDesc, List.pairwise_cons]
      refine ⟨?_, List.pairwise_cons.mpr h⟩
      intro z hz
      rcases List.mem_cons.mp hz with rfl | hz2
      · exact hxy
      · exact le_trans (h.1 z hz2) hxy
    · rename_i hxy
      rw [SortedDesc, List.pairwise_cons]
      refine ⟨?_, ih h.2⟩
      intro z hz
      rcases mem_insertStat.mp hz with rfl | hz2
      · exact le_of_lt (not_le.mp hxy)
      · exact h.1 z hz2

theorem sortStats_sorted (l : List DomainStats) : SortedDesc (sortStats l) := by
  induction l with
  | nil => exact List.Pairwise.nil
  | cons x xs ih => exact insertStat_sorted ih

theorem map_pair_toStats (l : List (String × Int)) :
    (toStats l).map (fun st => (st.Domain, st.Count)) = l := by
  unfold toStats
  rw [List.map_map]
  have hid : ((fun st : DomainStats => (st.Domain, st.Count)) ∘
      fun kv : String × Int => (⟨kv.1, kv.2⟩ : DomainStats)) = id := by
    funext kv
    rfl
  rw [hid, List.map_id]

/-! ### `AddContent` and `ingestAll` as contribution folds -/

theorem addContent_spec {m : Merger} {content : String} (h : AllShort content) :
    (addContent m content).merger.data =
        foldPairs m.data (validPairs (rawLines content)) ∧
      (addContent m content).merger.workDir = m.workDir ∧
      (addContent m content).err = none :=
  addContentAux_spec (rawLines content) m 0 0 h

theorem validPairs_append (a b : List (List Char)) :
    validPairs (a ++ b) = validPairs a ++ validPairs b := by
  unfold validPairs
  exact List.filterMap_append ..

theorem payloadRawLines_cons (p : String) (ps : List String) :
    payloadRawLines (p :: ps) = rawLines p ++ payloadRawLines ps := by
  unfold payloadRawLines
  rw [List.map_cons, List.flatten_cons]

theorem ingestAll_foldl_data (ps : List String) :
    ∀ m : Merger, AllShortP ps →
      (ps.foldl (fun m p => (addContent m p).merger) m).data =
        foldPairs m.data (validPairs (payloadRawLines ps)) := by
  induction ps with
  | nil => exact fun m _ => rfl
  | cons p ps ih =>
    intro m h
    rw [List.foldl_cons]
    rw [ih _ fun q hq => h q (List.mem_cons_of_mem _ hq)]
    rw [(addContent_spec (h p (List.mem_cons_self _ _))).1]
    rw [payloadRawLines_cons, validPairs_append]
    unfold foldPairs
    rw [List.foldl_append]

theorem ingestAll_data {ps : List String} (wd : String) (h : AllShortP ps) :
    (ingestAll wd ps).data = foldPairs [] (validPairs (payloadRawLines ps)) :=
  ingestAll_foldl_data ps (Merger.new wd) h

theorem lookupCount_foldPairs_nil (ps : List (String × Int)) (d : String) :
    lookupCount (foldPairs [] ps) d = wrap64 (contribSum d ps) := by
  rw [lookupCount_foldPairs]
  by_cases hf : (ps.filter fun q => q.1 = d) = []
  · rw [if_pos hf, contribSum_eq_zero_of_filter_nil hf, wrap64_zero]
    rfl
  · rw [if_neg hf, show lookupCount [] d = 0 from rfl, zero_add]

theorem lookup_ingestAll {ps : List String} (wd : String) (d : String)
    (h : AllShortP ps) :
    lookupCount (ingestAll wd ps).data d =
      wrap64 (contribSum d (validPairs (payloadRawLines ps))) := by
  rw [ingestAll_data wd h, lookupCount_foldPairs_nil]

theorem contribSum_perm {ps qs : List (String × Int)} (h : ps.Perm qs)
    (d : String) : contribSum d ps = contribSum d qs :=
  ((h.filter _).map _).sum_eq

/-! ### The TOFU pin store -/

theorem lookupPin_append_of_none {pins : List (String × String)}
    {h k : String} {q : String} (hq : lookupPin pins q = none) :
    lookupPin (pins ++ [(h, k)]) q = if h = q then some k else none := by
  induction pins with
  | nil => rfl
  | cons e es ih =>
    obtain ⟨h0, k0⟩ := e
    unfold lookupPin at hq ⊢
    split at hq
    · exact absurd hq (by simp)
    · rename_i hne
      rw [List.cons_append]
      show (if h0 = q then some k0 else lookupPin (es ++ [(h, k)]) q) = _
      rw [if_neg hne]
      exact ih hq

theorem lookupPin_append_of_some {pins : List (String × String)}
    {h k q v : String} (hq : lookupPin pins q = some v) :
    lookupPin (pins ++ [(h, k)]) q = some v := by
  induction pins with
  | nil => simp [lookupPin] at hq
  | cons e es ih =>
    obtain ⟨h0, k0⟩ := e
    unfold lookupPin at hq ⊢
    split at hq
    · rename_i he
      rw [List.cons_append]
      show (if h0 = q then some k0 else lookupPin (es ++ [(h, k)]) q) = some v
      rw [if_pos he]
      exact hq
    · rename_i hne
      rw [List.cons_append]
      show (if h0 = q then some k0 else lookupPin (es ++ [(h, k)]) q) = some v
      rw [if_neg hne]
      exact ih hq

theorem tofuVerify_inv {pins pins' : List (String × String)} {h k : String}
    (hv : tofuVerify pins h k = some pins') :
    (pins' = pins ∧ lookupPin pins h = some k) ∨
      (pins' = pins ++ [(h, k)] ∧ lookupPin pins h = none) := by
  unfold tofuVerify at hv
  split at hv
  · rename_i k0 hk0
    split at hv
    · rename_i heq
      injection hv with hv1
      exact Or.inl ⟨hv1.symm, heq ▸ hk0⟩
    · exact absurd hv (by simp)
  · rename_i hnone
    injection hv with hv1
    exact Or.inr ⟨hv1.symm, hnone⟩

theorem tofuRun_preserves (evs : List (String × String)) :
    ∀ {pins pins' : List (String × String)},
      tofuRun pins evs = some pins' → ∀ {h k : String},
      lookupPin pins h = some k → lookupPin pins' h = some k := by
  induction evs with
  | nil =>
    intro pins pins' hr h k hp
    injection hr with hr1
    exact hr1 ▸ hp
  | cons e es ih =>
    intro pins pins' hr h k hp
    simp only [tofuRun] at hr
    cases htv : tofuVerify pins e.1 e.2 with
    | none => rw [htv] at hr; exact absurd hr (by simp)
    | some pins1 =>
      rw [htv] at hr
      rcases tofuVerify_inv htv with ⟨rfl, _⟩ | ⟨rfl, hnone⟩
      · exact ih hr hp
      · exact ih hr (lookupPin_append_of_some hp)

theorem tofuRun_pins_events (evs : List (String × String)) :
    ∀ {pins pins' : List (String × String)},
      tofuRun pins evs = some pins' →
      ∀ e ∈ evs, lookupPin pins' e.1 = some e.2 := by
  induction evs with
  | nil => intro pins pins' _ e he; simp at he
  | cons e0 es ih =>
    intro pins pins' hr e he
    simp only [tofuRun] at hr
    cases htv : tofuVerify pins e0.1 e0.2 with
    | none => rw [htv] at hr; exact absurd hr (by simp)
    | some pins1 =>
      rw [htv] at hr
      rcases List.mem_cons.mp he with rfl | he2
      · rcases tofuVerify_inv htv with ⟨rfl, hsome⟩ | ⟨rfl, hnone⟩
        · exact tofuRun_preserves es hr hsome
        · refine tofuRun_preserves es hr ?_
          rw [lookupPin_append_of_none hnone, if_pos rfl]
      · exact ih hr e he2

theorem tofuRun_mismatch {evs : List (String × String)} {h k1 k2 : String}
    (h1 : (h, k1) ∈ evs) (h2 : (h, k2) ∈ evs) (hne : k1 ≠ k2) :
    tofuRun [] evs = none := by
  cases hr : tofuRun [] evs with
  | none => rfl
  | some pins' =>
    have e1 := tofuRun_pins_events evs hr (h, k1) h1
    have e2 := tofuRun_pins_events evs hr (h, k2) h2
    rw [e1] at e2
    injection e2 with e3
    exact absurd e3 hne

/-! ### `getTotalRequests` and `getTopDomain` -/

theorem getTotalRequests_foldl (stats : List DomainStats) :
    ∀ t : Int, stats.foldl (fun t st => wrap64 (t + st.Count)) (wrap64 t) =
      wrap64 (t + (stats.map DomainStats.Count).sum) := by
  induction stats with
  | nil =>
    intro t
    rw [List.foldl_nil, List.map_nil, List.sum_nil, add_zero]
  | cons x xs ih =>
    intro t
    rw [List.foldl_cons, wrap64_absorb, ih (t + x.Count), List.map_cons,
      List.sum_cons, add_assoc]

theorem getTotalRequests_eq (stats : List DomainStats) :
    getTotalRequests stats = wrap64 ((stats.map DomainStats.Count).sum) := by
  unfold getTotalRequests
  have h := getTotalRequests_foldl stats 0
  rw [wrap64_zero] at h
  rw [h, zero_add]

theorem validPairs_perm {ps qs : List (List Char)} (h : ps.Perm qs) :
    (validPairs ps).Perm (validPairs qs) := by
  unfold validPairs
  exact h.filterMap _

theorem getTopDomain_of_max (st0 : DomainStats) {stats : List DomainStats}
    (hsorted : SortedDesc stats) (hmem : st0 ∈ stats)
    (hmax : ∀ st ∈ stats, st.Domain ≠ st0.Domain → st.Count < st0.Count) :
    getTopDomain stats = st0.Domain := by
  cases stats with
  | nil => simp at hmem
  | cons h t =>
    show h.Domain = st0.Domain
    by_contra hne
    have hlt := hmax h (List.mem_cons_self _ _) hne
    rcases List.mem_cons.mp hmem with rfl | hmem2
    · exact hne rfl
    · rw [SortedDesc, List.pairwise_cons] at hsorted
      exact absurd (hsorted.1 st0 hmem2) (not_le.mpr hlt)

/-! ## The claims -/

/-- C1 counterexample: two well-formed lines `a|9223372036854775807`
(each count is `int64Max`) sum exactly to `2^64 − 2`, but the engine's
64-bit counter wraps the accumulated count around to `−2`, so the final
count is not the exact sum of the valid occurrences. -/
theorem c1_counterexample :
    lookupCount (ingestAll ""
        ["a|9223372036854775807\na|9223372036854775807"]).data "a" = -2 ∧
      (-2 : Int) ≠ 9223372036854775807 + 9223372036854775807 := by
  exact ⟨by decide, by decide⟩

/-- C1 (amended): for payloads whose scan tokens stay under the 64 KiB
scanner limit, the final count of a domain is the exact sum of all its
valid occurrences reduced into signed 64-bit range (`wrap64`), hence equal
to the exact sum whenever that sum fits in `int64`; the result is
invariant under reordering and regrouping of the line multiset across
payloads; and on the spec's end-to-end example the counts are
x.com 17, y.com 3, z.com 1, with total 21 and top domain x.com for every
map enumeration the runtime may produce. -/
theorem c1_additive_merge (wd : String) (ps qs : List String) (d : String)
    (hps : AllShortP ps) (hqs : AllShortP qs)
    (hperm : (payloadRawLines ps).Perm (payloadRawLines qs)) :
    lookupCount (ingestAll wd ps).data d =
        wrap64 (contribSum d (validPairs (payloadRawLines ps))) ∧
      (int64Min ≤ contribSum d (validPairs (payloadRawLines ps)) →
        contribSum d (validPairs (payloadRawLines ps)) ≤ int64Max →
        lookupCount (ingestAll wd ps).data d =
          contribSum d (validPairs (payloadRawLines ps))) ∧
      lookupCount (ingestAll wd ps).data d =
        lookupCount (ingestAll wd qs).data d ∧
      lookupCount exampleMerger.data "x.com" = 17 ∧
      lookupCount exampleMerger.data "y.com" = 3 ∧
      lookupCount exampleMerger.data "z.com" = 1 ∧
      (∀ e, IsEnumOf exampleMerger e →
        getTotalRequests (getSortedStatsOn e) = 21 ∧
        getTopDomain (getSortedStatsOn e) = "x.com") := by
  refine ⟨lookup_ingestAll wd d hps, ?_, ?_, by decide, by decide, by decide, ?_⟩
  · intro hlo hhi
    rw [lookup_ingestAll wd d hps]
    exact wrap64_eq_self hlo hhi
  · rw [lookup_ingestAll wd d hps, lookup_ingestAll wd d hqs,
      contribSum_perm (validPairs_perm hperm) d]
  · intro e he
    have hperm2 : (getSortedStatsOn e).Perm (toStats exampleMerger.data) :=
      (sortStats_perm _).trans (he.map _)
    constructor
    · rw [getTotalRequests_eq, (hperm2.map DomainStats.Count).sum_eq]
      decide
    · have hconc : ∀ st ∈ toStats exampleMerger.data,
          st.Domain ≠ "x.com" → st.Count < 17 := by decide
      exact getTopDomain_of_max ⟨"x.com", 17⟩ (sortStats_sorted _)
        (hperm2.mem_iff.mpr (by decide))
        (fun st hst hd => hconc st (hperm2.subset hst) hd)

/-- C1 witness: the general additivity theorem applied to the spec's
example payloads ingested in both orders. -/
theorem c1_witness :
    lookupCount (ingestAll "" [examplePayloadA, examplePayloadB]).data "x.com" =
      lookupCount (ingestAll "" [examplePayloadB, examplePayloadA]).data
        "x.com" :=
  (c1_additive_merge "" [examplePayloadA, examplePayloadB]
    [examplePayloadB, examplePayloadA] "x.com" (by decide) (by decide)
    (by decide)).2.2.1

/-- C2 counterexample: after ingesting `a|5` then `b|5`, the enumeration
`[(b,5), (a,5)]` is a legal Go map iteration order of the accumulated map,
and on it the snapshot comes out `[b:5, a:5]` — not the first-ingestion
order `[a:5, b:5]` the claim requires, so the tie order is neither stable
nor deterministic. -/
theorem c2_counterexample :
    IsEnumOf (addContent (Merger.new "") "a|5\nb|5").merger
        [("b", 5), ("a", 5)] ∧
      getSortedStatsOn [("b", 5), ("a", 5)] = [⟨"b", 5⟩, ⟨"a", 5⟩] ∧
      [(⟨"b", 5⟩ : DomainStats), ⟨"a", 5⟩] ≠ [⟨"a", 5⟩, ⟨"b", 5⟩] :=
  ⟨by decide, by decide, by decide⟩

/-- C2 (amended): for every merger state and every enumeration of its map,
the snapshot is sorted by count descending and contains exactly the
accumulated (domain, count) pairs; the order of equal-count entries depends
on Go's unspecified map iteration order (and `sort.Slice` is itself
unstable), so it is neither first-ingestion-stable nor deterministic. -/
theorem c2_sorted_snapshot (m : Merger) (e : List (String × Int))
    (he : IsEnumOf m e) :
    SortedDesc (getSortedStatsOn e) ∧
      (getSortedStatsOn e).Perm (toStats m.data) :=
  ⟨sortStats_sorted _, (sortStats_perm _).trans (he.map _)⟩

/-- C2 witness: the sortedness theorem applied to the tie scenario. -/
theorem c2_witness :
    SortedDesc (getSortedStatsOn [("b", 5), ("a", 5)]) ∧
      (getSortedStatsOn [("b", 5), ("a", 5)]).Perm
        (toStats (addContent (Merger.new "") "a|5\nb|5").merger.data) :=
  c2_sorted_snapshot (addContent (Merger.new "") "a|5\nb|5").merger
    [("b", 5), ("a", 5)] (by decide)

/-- C3 counterexample: the line `a.com|-5` has a negative count, which the
claim says is rejected; `strconv.Atoi` accepts it, the line is processed
(not counted as skipped), and the count of `a.com` becomes −5. -/
theorem c3_counterexample :
    (addContent (Merger.new "") "a.com|-5").skipped = 0 ∧
      (addContent (Merger.new "") "a.com|-5").processed = 1 ∧
      lookupCount (addContent (Merger.new "") "a.com|-5").merger.data
        "a.com" = -5 :=
  ⟨by decide, by decide, by decide⟩

/-- C3 (amended): a line is rejected iff it does not split into exactly two
fields on the pipe or its trimmed count field is not a syntactically valid
signed 64-bit integer (negative counts parse and are accepted); a rejected
line only increments the skipped tally and leaves the aggregation state
untouched. -/
theorem c3_rejected_lines (m : Merger) (p s : Nat) (raw : List Char)
    (rest : List (List Char)) (hshort : byteLen raw < lineLimit)
    (hinv : processLine (dropCR raw) = LineResult.invalid) :
    addContentAux m p s (raw :: rest) = addContentAux m p (s + 1) rest ∧
      (∀ l : List Char, l ≠ [] →
        ((splitChars (fun c => c = '|') l).length ≠ 2 ∨
          ∃ p0 p1, splitChars (fun c => c = '|') l = [p0, p1] ∧
            atoiChars (trimChars p1) = none) →
        processLine l = LineResult.invalid) := by
  constructor
  · rw [addContentAux_cons_short hshort, hinv]
  · intro l hne hbad
    unfold processLine
    rw [if_neg hne]
    cases hsp : splitChars (fun c => c = '|') l with
    | nil => rfl
    | cons p0 t0 =>
      cases t0 with
      | nil => rfl
      | cons p1 t1 =>
        cases t1 with
        | nil =>
          rcases hbad with hlen | ⟨q0, q1, heq, hat⟩
          · rw [hsp] at hlen
            simp at hlen
          · rw [hsp] at heq
            injection heq with h1 h2
            injection h2 with h2 h3
            subst h1
            subst h2
            simp only [hat]
        | cons p2 t2 => rfl

/-- C3 witness: the rejection theorem applied to the malformed line `b|x`
at the head of a payload. -/
theorem c3_witness :
    addContentAux (Merger.new "") 0 0 ["b|x".data] =
      addContentAux (Merger.new "") 0 1 [] :=
  (c3_rejected_lines (Merger.new "") 0 0 "b|x".data [] (by decide)
    (by decide)).1

theorem filterMap_eq_map_of_forall {α β : Type} (l : List α) (f : α → Option β)
    (g : α → β) (h : ∀ x ∈ l, f x = some (g x)) : l.filterMap f = l.map g := by
  induction l with
  | nil => rfl
  | cons a as ih =>
    rw [List.filterMap_cons, h a (List.mem_cons_self _ _), List.map_cons,
      ih fun x hx => h x (List.mem_cons_of_mem _ hx)]

theorem two_pow_62_eq : (2 : Int) ^ 62 = 4611686018427387904 := by norm_num

/-- C4 counterexample: the state holding `a ↦ 2^62` is reachable (ingest
`a|4611686018427387904`), its serialization is one well-formed line, but
re-ingesting it wraps the doubled count `2^63` around to `−2^63` instead
of doubling it. -/
theorem c4_counterexample :
    lookupCount (addContent
        (addContent (Merger.new "") "a|4611686018427387904").merger
        (serializeStats (getSortedStatsOn
          [("a", 4611686018427387904)]))).merger.data "a" =
      -9223372036854775808 ∧
      (-9223372036854775808 : Int) ≠ 2 * 4611686018427387904 :=
  ⟨by decide, by decide⟩

/-- C4 (amended): for every reachable aggregation state, every runtime map
enumeration, and every domain, serializing the snapshot and re-ingesting
the serialized bytes succeeds and doubles the domain's count modulo the
64-bit wrap — exactly doubling whenever every stored count fits in 62 bits
and every serialized line stays under the 64 KiB scanner token limit (the
two hypotheses below). -/
theorem c4_round_trip (m : Merger) (e : List (String × Int)) (d : String)
    (hm : Reachable m) (he : IsEnumOf m e)
    (hfit : ∀ kv ∈ m.data, -(2 ^ 62) ≤ kv.2 ∧ kv.2 ≤ 2 ^ 62 - 1)
    (hlen : ∀ st ∈ getSortedStatsOn e, byteLen (lineChars st) < lineLimit) :
    (addContent m (serializeStats (getSortedStatsOn e))).err = none ∧
      lookupCount
          (addContent m (serializeStats (getSortedStatsOn e))).merger.data d =
        2 * lookupCount m.data d := by
  have hgood := reachable_goodState hm
  have hperm : (getSortedStatsOn e).Perm (toStats m.data) :=
    (sortStats_perm _).trans (he.map _)
  have hstmem : ∀ st ∈ getSortedStatsOn e, (st.Domain, st.Count) ∈ m.data := by
    intro st hst
    obtain ⟨kv, hkv, heq⟩ := List.mem_map.mp (hperm.subset hst)
    rw [← heq]
    exact hkv
  have hnl : ∀ st ∈ getSortedStatsOn e, '\n' ∉ st.Domain.data := by
    intro st hst
    exact ((hgood.1 _ (hstmem st hst)).1).2.2
  have hraw : rawLines (serializeStats (getSortedStatsOn e)) =
      (getSortedStatsOn e).map lineChars :=
    rawLines_serializeStats _ hnl
  have hshort : AllShort (serializeStats (getSortedStatsOn e)) := by
    intro raw hrawmem
    rw [hraw] at hrawmem
    obtain ⟨st, hst, rfl⟩ := List.mem_map.mp hrawmem
    exact hlen st hst
  obtain ⟨hdata, _, herr⟩ := addContent_spec hshort
  refine ⟨herr, ?_⟩
  rw [hdata, hraw]
  have hvp : validPairs ((getSortedStatsOn e).map lineChars) =
      (getSortedStatsOn e).map fun st => (st.Domain, st.Count) := by
    unfold validPairs
    rw [List.filterMap_map]
    apply filterMap_eq_map_of_forall
    intro st hst
    have hg := hgood.1 _ (hstmem st hst)
    have hpl := processLine_lineChars hg.1 hg.2.1 hg.2.2
    simp only [Function.comp_apply]
    rw [hpl]
  rw [hvp]
  have hpairs :
      ((getSortedStatsOn e).map fun st => (st.Domain, st.Count)).Perm
        m.data := by
    have h2 := hperm.map fun st => (st.Domain, st.Count)
    rw [map_pair_toStats] at h2
    exact h2
  rw [lookupCount_foldPairs]
  by_cases hd : d ∈ m.data.map Prod.fst
  · obtain ⟨kv, hkv, hkvd⟩ := List.mem_map.mp hd
    have hdc : (d, kv.2) ∈ m.data := by
      rw [← hkvd]
      exact hkv
    have hlook : lookupCount m.data d = kv.2 :=
      lookupCount_of_mem_nodup hgood.2 hdc
    have hfil : m.data.filter (fun q => q.1 = d) = [(d, kv.2)] :=
      filter_key_of_mem_nodup hgood.2 hdc
    have hfil2 :
        (((getSortedStatsOn e).map fun st => (st.Domain, st.Count)).filter
          fun q => q.1 = d) = [(d, kv.2)] :=
      List.perm_singleton.mp (hfil ▸ hpairs.filter _)
    have hcontrib : contribSum d
        ((getSortedStatsOn e).map fun st => (st.Domain, st.Count)) = kv.2 := by
      unfold contribSum
      rw [hfil2]
      simp
    have hbound := hfit _ hdc
    rw [if_neg (by rw [hfil2]; exact List.cons_ne_nil _ _), hcontrib, hlook,
      wrap64_eq_self (by
        simp only [int64Min, two_pow_63_eq, two_pow_62_eq] at hbound ⊢
        omega) (by
        simp only [int64Max, two_pow_63_eq, two_pow_62_eq] at hbound ⊢
        omega)]
    ring
  · have hlook : lookupCount m.data d = 0 := lookupCount_eq_zero_of_not_mem hd
    have hfil : m.data.filter (fun q => q.1 = d) = [] :=
      filter_key_nil_of_not_mem hd
    have hfil2 :
        (((getSortedStatsOn e).map fun st => (st.Domain, st.Count)).filter
          fun q => q.1 = d) = [] :=
      List.Perm.eq_nil (hfil ▸ hpairs.filter _)
    rw [if_pos hfil2, hlook, mul_zero]

/-- C4 witness: the round-trip theorem applied to the state reached by
ingesting `x.com|2` and `y.com|3`, re-ingesting its own serialization,
read back at `y.com`. -/
theorem c4_witness :
    (addContent (addContent (Merger.new "") "x.com|2\ny.com|3").merger
        (serializeStats (getSortedStatsOn
          (addContent (Merger.new "") "x.com|2\ny.com|3").merger.data))).err =
      none ∧
      lookupCount (addContent
          (addContent (Merger.new "") "x.com|2\ny.com|3").merger
          (serializeStats (getSortedStatsOn
            (addContent (Merger.new "")
              "x.com|2\ny.com|3").merger.data))).merger.data "y.com" =
        2 * lookupCount
          (addContent (Merger.new "") "x.com|2\ny.com|3").merger.data
          "y.com" :=
  c4_round_trip (addContent (Merger.new "") "x.com|2\ny.com|3").merger
    (addContent (Merger.new "") "x.com|2\ny.com|3").merger.data "y.com"
    (Reachable.step (Merger.new "") "x.com|2\ny.com|3" (Reachable.new ""))
    (List.Perm.refl _) (by decide) (by decide)

/-- C5: with at least one fetch success and at least one fetch failure
(and finalization and delivery succeeding, as the full-success clause
presupposes), `run` returns `ExitPartialError`; with no failures it
returns `ExitSuccess`; with no successes it returns `ExitFetchError`
whatever the later steps would do; and the three classifications are
pairwise distinct. -/
theorem c5_partial_classification (rs : List Bool) (hT : true ∈ rs)
    (hF : false ∈ rs) :
    (runModel rs true true).exit = ExitPartialError ∧
      (runModel [true, false] true true).exit = ExitPartialError ∧
      (∀ rs' : List Bool, true ∈ rs' → false ∉ rs' →
        runModel rs' true true = ⟨ExitSuccess, true, true⟩) ∧
      (∀ (rs' : List Bool) (saveOk uploadOk : Bool), true ∉ rs' →
        (runModel rs' saveOk uploadOk).exit = ExitFetchError) ∧
      ExitPartialError ≠ ExitFetchError ∧ ExitPartialError ≠ ExitSuccess ∧
      ExitFetchError ≠ ExitSuccess := by
  have hsuccne : ∀ rs0 : List Bool, true ∈ rs0 →
      ¬((rs0.filter fun b => b = true).length = 0) := by
    intro rs0 h1 h0
    rw [List.length_eq_zero] at h0
    have hmem : true ∈ rs0.filter (fun b => b = true) :=
      List.mem_filter.mpr ⟨h1, by decide⟩
    rw [h0] at hmem
    exact List.not_mem_nil _ hmem
  have hgen : ∀ rs0 : List Bool, true ∈ rs0 → false ∈ rs0 →
      (runModel rs0 true true).exit = ExitPartialError := by
    intro rs0 h1 h2
    have hfail : 0 < (rs0.filter fun b => b = false).length := by
      have hmem : false ∈ rs0.filter (fun b => b = false) :=
        List.mem_filter.mpr ⟨h2, by decide⟩
      exact List.length_pos.mpr (List.ne_nil_of_mem hmem)
    unfold runModel
    rw [if_neg (hsuccne rs0 h1), if_neg (by decide : ¬(true = false)),
      if_neg (by decide : ¬(true = false)), if_pos hfail]
  refine ⟨hgen rs hT hF, hgen [true, false] (by decide) (by decide), ?_, ?_,
    by decide, by decide, by decide⟩
  · intro rs' h1 h2
    have hfail0 : (rs'.filter fun b => b = false) = [] := by
      rw [List.filter_eq_nil_iff]
      intro b hb
      simp only [decide_eq_true_eq]
      intro he
      exact h2 (he ▸ hb)
    unfold runModel
    rw [if_neg (hsuccne rs' h1), if_neg (by decide : ¬(true = false)),
      if_neg (by decide : ¬(true = false)), if_neg (by rw [hfail0]; simp)]
  · intro rs' saveOk uploadOk h1
    have hnil : (rs'.filter fun b => b = true) = [] := by
      rw [List.filter_eq_nil_iff]
      intro b hb
      simp only [decide_eq_true_eq]
      intro he
      exact h1 (he ▸ hb)
    unfold runModel
    rw [if_pos (by rw [hnil]; rfl)]

/-- C5 witness: the classification theorem applied at the two-source run
with one success and one failure. -/
theorem c5_witness :
    (runModel [true, false] true true).exit = ExitPartialError :=
  (c5_partial_classification [true, false] (by decide) (by decide)).1

/-- C6: a run in which no source fetch succeeds returns the total-fetch-
failure classification and returns before `SaveToFile` and before the
upload: no serialized aggregate is produced and no delivery is
attempted. -/
theorem c6_no_delivery_on_total_failure (rs : List Bool)
    (saveOk uploadOk : Bool) (h : true ∉ rs) :
    runModel rs saveOk uploadOk = ⟨ExitFetchError, false, false⟩ := by
  have hnil : (rs.filter fun b => b = true) = [] := by
    rw [List.filter_eq_nil_iff]
    intro b hb
    simp only [decide_eq_true_eq]
    intro he
    exact h (he ▸ hb)
  unfold runModel
  rw [if_pos (by rw [hnil]; rfl)]

/-- C6 witness: the theorem applied to a two-source run where both fetches
fail. -/
theorem c6_witness :
    runModel [false, false] true true = ⟨ExitFetchError, false, false⟩ :=
  c6_no_delivery_on_total_failure [false, false] true true (by decide)

/-- C7: when host-key verification is requested (`insecureSkipVerify`
false) but the known-hosts store is unusable, `getSSHConfig` installs the
TOFU callback and reports the fallback (the warning log); under TOFU the
first key seen for each host stays pinned for the callback's lifetime
(every verified presentation agrees with the pin), and two presentations
of different keys for the same host make the run fail hard. -/
theorem c7_tofu_fallback (evs : List (String × String))
    (pins' : List (String × String)) :
    selectHostPolicy false false = (HostPolicy.tofuFallback, true) ∧
      (tofuRun [] evs = some pins' →
        ∀ e ∈ evs, lookupPin pins' e.1 = some e.2) ∧
      (∀ h k1 k2, (h, k1) ∈ evs → (h, k2) ∈ evs → k1 ≠ k2 →
        tofuRun [] evs = none) :=
  ⟨rfl, fun hr => tofuRun_pins_events evs hr,
    fun _ _ _ h1 h2 hne => tofuRun_mismatch h1 h2 hne⟩

/-- C7 witness: the TOFU theorem applied to a host presenting two
different keys in one run. -/
theorem c7_witness :
    selectHostPolicy false false = (HostPolicy.tofuFallback, true) ∧
      tofuRun [] [("archive.example", "fp1"), ("archive.example", "fp2")] =
        none :=
  ⟨(c7_tofu_fallback [] []).1,
    (c7_tofu_fallback [("archive.example", "fp1"), ("archive.example", "fp2")]
      []).2.2 "archive.example" "fp1" "fp2" (by decide) (by decide)
      (by decide)⟩

/-- C8: `getSSHConfig` offers the password first whenever one is present,
adds the private key when a key path is set and the key loads (both may be
offered together), and fails with the no-credentials error exactly when
the password is empty and no loadable key is available. -/
theorem c8_auth_selection (password keyPath : String) (keyLoadable : Bool) :
    (password ≠ "" → (buildAuthMethods password keyPath keyLoadable).head? =
        some AuthMethod.password) ∧
      (password ≠ "" → keyPath ≠ "" → keyLoadable = true →
        buildAuthMethods password keyPath keyLoadable =
          [AuthMethod.password, AuthMethod.publicKey]) ∧
      (password = "" → keyPath ≠ "" → keyLoadable = true →
        buildAuthMethods password keyPath keyLoadable =
          [AuthMethod.publicKey]) ∧
      (selectAuth password keyPath keyLoadable = none ↔
        password = "" ∧ (keyPath = "" ∨ keyLoadable = false)) := by
  by_cases hp : password = "" <;> by_cases hk : keyPath = "" <;>
    cases keyLoadable <;>
      simp [buildAuthMethods, selectAuth, hp, hk]

/-- C8 witness: the selection theorem at a password-and-key configuration
and at an empty-credentials configuration. -/
theorem c8_witness :
    (buildAuthMethods "secret" "/root/key" true).head? =
        some AuthMethod.password ∧
      selectAuth "" "/root/key" false = none :=
  ⟨(c8_auth_selection "secret" "/root/key" true).1 (by decide),
    (c8_auth_selection "" "/root/key" false).2.2.2.mpr ⟨rfl, Or.inr rfl⟩⟩

theorem byteLen_replicate_a (n : Nat) : byteLen (List.replicate n 'a') = n := by
  induction n with
  | zero => rfl
  | succ n ih =>
    rw [List.replicate_succ]
    unfold byteLen at ih ⊢
    rw [List.map_cons, List.sum_cons, ih]
    rw [show Char.utf8Size 'a' = 1 from rfl]
    omega

/-- C9 counterexample: a payload consisting of one 65536-byte line (no
newline) makes the scanner fail with `ErrTooLong`, so `AddContent` returns
an error instead of the success the claim promises for every payload. -/
theorem c9_counterexample :
    (addContent (Merger.new "") ⟨List.replicate 65536 'a'⟩).err =
      some "error reading content: bufio.Scanner: token too long" := by
  have hnl : '\n' ∉ List.replicate 65536 'a' := by
    intro h
    exact absurd (List.eq_of_mem_replicate h) (by decide)
  have hne : List.replicate 65536 'a' ≠ [] := by
    intro h
    have hlen := congrArg List.length h
    rw [List.length_replicate] at hlen
    simp at hlen
  unfold addContent
  rw [rawLines_no_newline hnl hne,
    addContentAux_cons_long (by rw [byteLen_replicate_a]; decide)]

/-- C9 (amended): `AddContent` succeeds exactly when every scan token of
the payload stays under the 64 KiB scanner token limit; in particular it
never fails on merely malformed lines — those only increment the skipped
tally — but a payload with a 64 KiB line makes it return the scanner's
error. -/
theorem c9_ingest_error_iff (m : Merger) (content : String) :
    (addContent m content).err = none ↔ AllShort content :=
  addContentAux_err_none_iff (rawLines content) m 0 0

/-- C9 witness: a malformed but short payload is ingested without a fatal
error. -/
theorem c9_witness : (addContent (Merger.new "") "not a valid line").err =
    none :=
  (c9_ingest_error_iff (Merger.new "") "not a valid line").mpr (by decide)

/-- C10: in every reachable aggregation state, each stored domain key is
trim-invariant and free of the pipe delimiter, and each serialized line
`domain|count` parses back under the ingest line parser to exactly the
same (domain, count) pair. -/
theorem c10_serialization_unambiguous (m : Merger) (hm : Reachable m) :
    ∀ kv ∈ m.data, trimChars kv.1.data = kv.1.data ∧ '|' ∉ kv.1.data ∧
      processLine (dropCR (lineChars ⟨kv.1, kv.2⟩)) =
        LineResult.valid kv.1 kv.2 := by
  intro kv hkv
  have hgood := reachable_goodState hm
  obtain ⟨hgk, hlo, hhi⟩ := hgood.1 kv hkv
  exact ⟨hgk.1, hgk.2.1, processLine_lineChars hgk hlo hhi⟩

/-- C10 witness: the invariant applied to the state reached by ingesting
a line with surrounding whitespace (` a.com |7`), at its stored key. -/
theorem c10_witness :
    trimChars (String.data "a.com") = String.data "a.com" ∧
      '|' ∉ String.data "a.com" ∧
      processLine (dropCR (lineChars ⟨"a.com", 7⟩)) =
        LineResult.valid "a.com" 7 :=
  c10_serialization_unambiguous
    (addContent (Merger.new "") " a.com |7").merger
    (Reachable.step (Merger.new "") " a.com |7" (Reachable.new ""))
    ("a.com", 7) (by decide)

end Gihftp
